import Mathlib

set_option autoImplicit false

/-!
Shallow embedding of `src/sequence.h`: the generic single-element `split`,
the `split<std::string, std::string>` multi-character specialization,
`join`, and the Python-style `slice`.  Sequences are modelled as Lean
lists, `std::string` values as `List Char`, and signed C++ `ptrdiff_t`
arithmetic as `Int`.
-/

namespace Seq

/-- The failures the source actually raises: it throws `std::out_of_range`
with a distinct message for each of these cases.  The specification's
fourth error, EmptyInput for `join`, has no counterpart in the code — `join`
performs no check at all on an empty range. -/
inductive UtilError : Type
  | invalidStep
  | indexOutOfRange
  | emptyDelimiter
  deriving DecidableEq, Repr

/-- Emit a segment only when it is non-empty: models the
`if (iter != spot)` guard of the generic `split` loop. -/
def emitIf {α : Type} [DecidableEq α] (seg : List α) : List (List α) :=
  if seg = [] then [] else [seg]

/-- Generic `split(items, delim)` (`src/sequence.h` lines 19-28): repeatedly
locate the next occurrence of `delim` with `std::find`, emit the non-empty
run `[iter, spot)` before it, and resume just past the found delimiter.
`takeWhile` and `dropWhile` with the predicate `x != delim` are exactly the
ranges `[iter, spot)` and `[spot, end)` of the source loop. -/
def split {α : Type} [DecidableEq α] (items : List α) (delim : α) :
    List (List α) :=
  match hrest : items.dropWhile (fun x => x != delim) with
  | [] => emitIf (items.takeWhile (fun x => x != delim))
  | _ :: rest =>
      emitIf (items.takeWhile (fun x => x != delim)) ++ split rest delim
termination_by items.length
decreasing_by
  have h1 : (items.dropWhile (fun x => x != delim)).length ≤ items.length :=
    (List.dropWhile_sublist (fun x => x != delim)).length_le
  rw [hrest] at h1
  simp at h1
  omega

/-- Model of the library call `std::string::find(delim, start)`: the least
position `p ≥ start` at which `delim` occurs as a contiguous substring,
`none` (`npos`) when there is no such occurrence. -/
def strFind (items delim : List Char) (start : Nat) : Option Nat :=
  ((List.range (items.length + 1)).filter
      (fun p => decide (start ≤ p) && delim.isPrefixOf (items.drop p))).head?

theorem strFind_bounds {items delim : List Char} {start p : Nat}
    (h : strFind items delim start = some p) :
    start ≤ p ∧ p ≤ items.length ∧ delim <+: items.drop p := by
  unfold strFind at h
  have hmem : p ∈ (List.range (items.length + 1)).filter
      (fun q => decide (start ≤ q) && delim.isPrefixOf (items.drop q)) :=
    List.mem_of_mem_head? (by rw [h]; rfl)
  rw [List.mem_filter] at hmem
  obtain ⟨hr, hp⟩ := hmem
  rw [List.mem_range] at hr
  simp at hp
  exact ⟨hp.1, by omega, hp.2⟩

/-- The position-collection loop of the specialization (lines 35-39): gather
the match positions scanning left to right, resuming each search at
`pos + 1` (not at `pos + delim.size()`). -/
def collectPositions (items delim : List Char) (start : Nat) : List Nat :=
  match hfind : strFind items delim start with
  | none => []
  | some pos => pos :: collectPositions items delim (pos + 1)
termination_by items.length + 1 - start
decreasing_by
  have hb := strFind_bounds hfind
  omega

/-- Model of the library call `std::string::substr(pos, count)` for
`pos ≤ size()`: up to `count` characters starting at `pos`. -/
def cppSubstr (items : List Char) (pos count : Nat) : List Char :=
  (items.drop pos).take count

/-- The token-emission loop of the specialization (lines 44-48).  `base` is
one past the previously consumed skip-range.  When an earlier match overlaps
the current one we have `base > pos`, and the source computes `pos - base`
in `size_t`, which wraps around to a huge count, so `substr(base, huge)`
yields the whole suffix from `base`; the final `else` branch models that
wrap-around (exact for any string shorter than the wrapped count, i.e.
always in practice). -/
def emitTokens (items : List Char) (dlen : Nat) : Nat → List Nat → List (List Char)
  | _, [] => []
  | base, pos :: rest =>
      (if base = pos then []
       else if base < pos then [cppSubstr items base (pos - base)]
       else [items.drop base]) ++
      emitTokens items dlen (pos + dlen) rest

/-- The `split<std::string, std::string>` specialization (lines 30-50):
reject an empty delimiter, delegate a one-character delimiter to the
generic element `split`, otherwise collect the match positions and emit the
tokens between the skip-ranges.  Note the loop emits no token after the
last skip-range. -/
def splitString (items delim : List Char) : Except UtilError (List (List Char)) :=
  match delim with
  | [] => Except.error UtilError.emptyDelimiter
  | [c] => Except.ok (split items c)
  | _ => Except.ok (emitTokens items delim.length 0 (collectPositions items delim 0))

/-- The accumulation loop of `join` (lines 57-62): starting from the first
segment, append separator then segment for every further segment. -/
def joinCat {α : Type} (first : List α) (rest : List (List α)) (sep : List α) :
    List α :=
  rest.foldl (fun acc seg => acc ++ sep ++ seg) first

/-- Model of `join(begin, end, sep)` (lines 55-63): start from the first
segment, then append separator and segment for every further one.  The
source performs no emptiness check: on an empty range it unconditionally
dereferences `*begin`, which has no defined result, so the empty case is
modelled as `none` (undefined behavior) — no error is raised there. -/
def join {α : Type} (segs : List (List α)) (sep : List α) : Option (List α) :=
  match segs with
  | [] => none
  | first :: rest => some (joinCat first rest sep)

/-- Result of `slice`: an error, a defined result, or `undefined` when the
walk dereferences an invalid iterator position, which is undefined behavior
in the source. -/
inductive SliceResult (α : Type) : Type
  | error (e : UtilError)
  | undefined
  | ok (xs : List α)
  deriving DecidableEq, Repr

/-- The `bound_check` lambda of `slice` (lines 103-115), with iterators
replaced by their positions: `iter < e_iter` is `it < e`, and
`iter >= items.begin()` is `it ≥ 0`. -/
def boundCheck (stopGiven : Bool) (stp e it : Int) : Bool :=
  if stp > 0 then decide (it < e)
  else if stopGiven then
    (if stp > 0 then decide (it < e) else decide (it > e))
  else decide (it ≥ 0)

theorem boundCheck_pos {stopGiven : Bool} {stp e it : Int}
    (h : boundCheck stopGiven stp e it = true) (hs : 0 < stp) : it < e := by
  unfold boundCheck at h
  rw [if_pos hs] at h
  exact of_decide_eq_true h

theorem boundCheck_negGiven {stp e it : Int}
    (h : boundCheck true stp e it = true) (hs : stp < 0) : e < it := by
  unfold boundCheck at h
  rw [if_neg (by omega), if_pos rfl, if_neg (by omega)] at h
  exact of_decide_eq_true h

theorem boundCheck_negFree {stp e it : Int}
    (h : boundCheck false stp e it = true) (hs : stp < 0) : 0 ≤ it := by
  unfold boundCheck at h
  rw [if_neg (by omega)] at h
  simp at h
  exact h

/-- Dereference the cursor position: `none` when the position is not a valid
index, which would be an invalid iterator dereference in the source. -/
def deref {α : Type} (items : List α) (it : Int) : Option α :=
  if 0 ≤ it then items[it.toNat]? else none

/-- The element-collection loop of `slice` (lines 117-120): while
`bound_check` holds, append the element at the cursor and advance the cursor
by the step.  Returns `none` when the loop would dereference an invalid
position.  Every path of `slice` that reaches this loop has a non-zero step,
which is what makes the walk terminate. -/
def sliceWalk {α : Type} (items : List α) (stopGiven : Bool) (stp e : Int)
    (hstp : stp ≠ 0) (it : Int) : Option (List α) :=
  if hb : boundCheck stopGiven stp e it = true then
    match deref items it with
    | none => none
    | some a =>
        match sliceWalk items stopGiven stp e hstp (it + stp) with
        | none => none
        | some rest => some (a :: rest)
  else some []
termination_by (if 0 < stp then e - it else if stopGiven then it - e else it + 1).toNat
decreasing_by
  rcases (lt_or_gt_of_ne hstp) with hneg | hpos
  · cases stopGiven with
    | true =>
        have h1 : e < it := boundCheck_negGiven hb hneg
        have h2 : ¬ (0 < stp) := by omega
        simp only [if_neg h2, if_pos rfl, Bool.cond_true]
        simp only [if_true]
        omega
    | false =>
        have h1 : 0 ≤ it := boundCheck_negFree hb hneg
        have h2 : ¬ (0 < stp) := by omega
        simp only [if_neg h2]
        simp only [Bool.false_eq_true, if_false]
        omega
  · have h1 : it < e := boundCheck_pos hb hpos
    simp only [if_pos hpos]
    omega

/-- Model of `slice(items, start, stop, step)` (lines 70-122): resolve the
step (default `1`, zero rejected), resolve the start (default `0` for a
positive step, `n - 1` for a negative one) and the stop (default `n`),
check the magnitudes of the raw resolved values against the length, convert
both to positions, and walk. -/
def slice {α : Type} (items : List α) (start stop step : Option Int) :
    SliceResult α :=
  let resolvedStep := step.getD 1
  if hstep : resolvedStep = 0 then SliceResult.error UtilError.invalidStep
  else
    let n : Int := items.length
    let resolvedStart :=
      if resolvedStep > 0 then start.getD 0 else start.getD (n - 1)
    let resolvedStop := stop.getD n
    if resolvedStart.natAbs > items.length then
      SliceResult.error UtilError.indexOutOfRange
    else if resolvedStop.natAbs > items.length then
      SliceResult.error UtilError.indexOutOfRange
    else
      let signedIter : Int → Int := fun index =>
        if index ≥ 0 then index else n + index
      match sliceWalk items stop.isSome resolvedStep (signedIter resolvedStop)
          hstep (signedIter resolvedStart) with
      | none => SliceResult.undefined
      | some xs => SliceResult.ok xs

/-! Unconditional unfolding equations for the recursive definitions, in the
shape simp can apply. -/

theorem split_eq {α : Type} [DecidableEq α] (items : List α) (delim : α) :
    split items delim =
      match items.dropWhile (fun x => x != delim) with
      | [] => emitIf (items.takeWhile (fun x => x != delim))
      | _ :: rest =>
          emitIf (items.takeWhile (fun x => x != delim)) ++ split rest delim := by
  rw [split.eq_def]
  split
  case _ heq => rw [heq]
  case _ x rest heq => rw [heq]

theorem split_eq_nil {α : Type} [DecidableEq α] {items : List α} {delim : α}
    (h : items.dropWhile (fun x => x != delim) = []) :
    split items delim = emitIf (items.takeWhile (fun x => x != delim)) := by
  rw [split_eq, h]

theorem split_eq_cons {α : Type} [DecidableEq α] {items : List α} {delim x : α}
    {rest : List α} (h : items.dropWhile (fun x => x != delim) = x :: rest) :
    split items delim =
      emitIf (items.takeWhile (fun x => x != delim)) ++ split rest delim := by
  rw [split_eq, h]

theorem collectPositions_eq (items delim : List Char) (start : Nat) :
    collectPositions items delim start =
      match strFind items delim start with
      | none => []
      | some pos => pos :: collectPositions items delim (pos + 1) := by
  rw [collectPositions.eq_def]
  split
  case _ heq => rw [heq]
  case _ pos heq => rw [heq]

theorem sliceWalk_eq {α : Type} (items : List α) (stopGiven : Bool) (stp e : Int)
    (hstp : stp ≠ 0) (it : Int) :
    sliceWalk items stopGiven stp e hstp it =
      if boundCheck stopGiven stp e it = true then
        match deref items it with
        | none => none
        | some a =>
            match sliceWalk items stopGiven stp e hstp (it + stp) with
            | none => none
            | some rest => some (a :: rest)
      else some [] := by
  rw [sliceWalk.eq_def]
  split
  · rfl
  · rfl

/-! Claim theorems. -/

/-- C9: for every sequence, including empty ones, and all start and stop
arguments, slice called with step equal to 0 fails with the InvalidStep
error. -/
theorem slice_step_zero_invalidStep {α : Type} (items : List α)
    (start stop : Option Int) :
    slice items start stop (some 0) = SliceResult.error UtilError.invalidStep :=
  rfl

/-- C10: for the empty sequence with start and stop omitted and any negative
step, slice fails with IndexOutOfRange: the defaulted start value `n - 1`,
equal to `-1` when `n = 0`, goes through the same magnitude check as
caller-provided values, and its absolute value 1 exceeds the length 0. -/
theorem slice_nil_negStep_indexOutOfRange {α : Type} (stp : Int) (h : stp < 0) :
    slice ([] : List α) none none (some stp) =
      SliceResult.error UtilError.indexOutOfRange := by
  unfold slice
  rw [dif_neg (by simp; omega)]
  simp only [Option.getD_some, Option.getD_none, Option.isSome_none,
    List.length_nil, Nat.cast_zero]
  rw [if_neg (show ¬ stp > 0 by omega), if_pos (by decide)]

/-- Witness for C10 at the concrete step -1. -/
theorem slice_nil_negStep_indexOutOfRange_witness :
    slice ([] : List Nat) none none (some (-1)) =
      SliceResult.error UtilError.indexOutOfRange :=
  slice_nil_negStep_indexOutOfRange (-1) (by decide)

/-- C3 (evaluation of the code at the failing input): for every separator,
join called with zero segments has no defined result — the source contains
no emptiness check and dereferences `*begin` on the empty range — so no
EmptyInput error is raised, contrary to the claim. -/
theorem join_nil_undefined {α : Type} (sep : List α) :
    join ([] : List (List α)) sep = none :=
  rfl

/-- C1 (evaluation of the code at the failing input): the delimiter "xy"
does not occur in "ab", yet the multi-character split returns no segments
instead of the single-segment collection `[the whole input]`: the
specialization's emission loop never emits the segment after the last
skip-range, so with no occurrence at all it emits nothing. -/
theorem splitString_absent_delim_loses_input :
    splitString ['a', 'b'] ['x', 'y'] = Except.ok [] := by
  have h0 : strFind ['a', 'b'] ['x', 'y'] 0 = none := by decide
  show Except.ok
      (emitTokens ['a', 'b'] 2 0 (collectPositions ['a', 'b'] ['x', 'y'] 0)) =
    Except.ok []
  rw [collectPositions_eq, h0]
  rfl

/-- C2 (evaluation of the code at the failing input): splitting "ab&*cd" on
"&*" yields only the gap before the occurrence; the gap after the last
occurrence, "cd", is lost because the emission loop stops at the last
skip-range. -/
theorem splitString_drops_tail_segment :
    splitString ['a', 'b', '&', '*', 'c', 'd'] ['&', '*'] =
      Except.ok [['a', 'b']] := by
  have h0 : strFind ['a', 'b', '&', '*', 'c', 'd'] ['&', '*'] 0 = some 2 := by
    decide
  have h1 : strFind ['a', 'b', '&', '*', 'c', 'd'] ['&', '*'] 3 = none := by
    decide
  show Except.ok (emitTokens ['a', 'b', '&', '*', 'c', 'd'] 2 0
      (collectPositions ['a', 'b', '&', '*', 'c', 'd'] ['&', '*'] 0)) =
    Except.ok [['a', 'b']]
  rw [collectPositions_eq, h0]
  norm_num
  rw [collectPositions_eq, h1]
  rfl

/-- C4 (counterexample): on the empty sequence, `slice(s, -1, None, -1)`
does not return the reversal of `s`: the provided start `-1` fails the
magnitude check (1 > 0), so slice fails with IndexOutOfRange. -/
theorem slice_reverse_fails_on_nil :
    slice ([] : List Nat) (some (-1)) none (some (-1)) =
        SliceResult.error UtilError.indexOutOfRange ∧
      slice ([] : List Nat) (some (-1)) none (some (-1)) ≠
        SliceResult.ok (([] : List Nat).reverse) := by
  refine ⟨rfl, ?_⟩
  intro hc
  rw [show slice ([] : List Nat) (some (-1)) none (some (-1)) =
      SliceResult.error UtilError.indexOutOfRange from rfl] at hc
  cases hc

/-- Continuation condition of the walk exactly as the specification words
it: with positive step continue while the cursor is strictly below the
resolved stop; with negative step and an explicitly supplied stop, while
strictly above it; with negative step and stop omitted, while the cursor is
a valid non-negative index. -/
def boundCheckSpec (stopGiven : Bool) (stp e it : Int) : Bool :=
  if stp > 0 then decide (it < e)
  else if stopGiven then decide (e < it)
  else decide (0 ≤ it)

/-- C6: the source's walk-continuation test is exactly the
direction-dependent condition stated by the specification; in particular
with negative step and no stop the walk continues down to and including
index 0. -/
theorem boundCheck_eq_spec (stopGiven : Bool) (stp e it : Int) :
    boundCheck stopGiven stp e it = boundCheckSpec stopGiven stp e it := by
  cases stopGiven <;> by_cases hp : stp > 0 <;>
    simp [boundCheck, boundCheckSpec, hp, gt_iff_lt, ge_iff_le]

/-- C5: with both start and stop provided and a non-zero step, slice fails
with IndexOutOfRange exactly when the magnitude of one of the raw provided
values exceeds the sequence length.  The check is on the raw value, before
negative-index resolution, so magnitudes equal to the length (values `n`
and `-n`) are accepted. -/
theorem slice_indexOutOfRange_iff {α : Type} (items : List α) (v w stp : Int)
    (h : stp ≠ 0) :
    (slice items (some v) (some w) (some stp) =
        SliceResult.error UtilError.indexOutOfRange) ↔
      (items.length < v.natAbs ∨ items.length < w.natAbs) := by
  unfold slice
  rw [dif_neg (by simpa using h)]
  simp only [Option.getD_some, Option.isSome_some, ite_self]
  by_cases h1 : items.length < v.natAbs
  · rw [if_pos h1]
    simp [h1]
  · rw [if_neg h1]
    by_cases h2 : items.length < w.natAbs
    · rw [if_pos h2]
      simp [h2]
    · rw [if_neg h2]
      split
      · simp [h1, h2]
      · simp [h1, h2]

/-- Witness for C5: start magnitude 3 exceeds length 2. -/
theorem slice_indexOutOfRange_iff_witness :
    slice ([0, 1] : List Nat) (some 3) (some 0) (some 1) =
      SliceResult.error UtilError.indexOutOfRange :=
  (slice_indexOutOfRange_iff [0, 1] 3 0 1 (by decide)).mpr (Or.inl (by decide))

/-- With step -1 and no stop supplied, the walk started at a valid position
`k` visits `k, k-1, ..., 0` and collects the first `k + 1` elements in
reverse order. -/
theorem sliceWalk_negOne_noStop {α : Type} (items : List α) (e : Int)
    (hstp : (-1 : Int) ≠ 0) (k : Nat) (hk : k < items.length) :
    sliceWalk items false (-1) e hstp (k : Int) =
      some ((items.take (k + 1)).reverse) := by
  induction k with
  | zero =>
      rw [sliceWalk_eq, if_pos (by rfl)]
      rw [show deref items ((0 : Nat) : Int) = some items[0] by
        unfold deref
        rw [if_pos (by norm_num)]
        simp]
      rw [show ((0 : Nat) : Int) + (-1) = (-1 : Int) by norm_num]
      rw [sliceWalk_eq, if_neg (by unfold boundCheck; norm_num)]
      simp [List.take_succ, List.getElem?_eq_getElem hk]
  | succ k ih =>
      have hk' : k < items.length := by omega
      rw [sliceWalk_eq, if_pos (show boundCheck false (-1) e ((k + 1 : Nat) : Int) = true by
        unfold boundCheck
        norm_num
        omega)]
      rw [show deref items ((k + 1 : Nat) : Int) = some items[k + 1] by
        unfold deref
        rw [if_pos (by omega : (0 : Int) ≤ ((k + 1 : Nat) : Int))]
        rw [show ((k + 1 : Nat) : Int).toNat = k + 1 by omega]
        exact List.getElem?_eq_getElem hk]
      rw [show ((k + 1 : Nat) : Int) + (-1) = ((k : Nat) : Int) by push_cast; ring]
      rw [ih hk']
      simp [List.take_succ, List.getElem?_eq_getElem hk, List.reverse_append]

/-- C4 (amended): for every non-empty sequence, `slice(s, -1, None, -1)`
succeeds and returns the full reversal of `s`; on the empty sequence the
provided start `-1` instead fails the magnitude check with IndexOutOfRange
(see the counterexample). -/
theorem slice_negOne_reverses {α : Type} (items : List α) (h : items ≠ []) :
    slice items (some (-1)) none (some (-1)) =
      SliceResult.ok items.reverse := by
  have hlen : 0 < items.length := List.length_pos.mpr h
  unfold slice
  rw [dif_neg (by norm_num)]
  simp only [Option.getD_some, Option.getD_none, Option.isSome_none]
  rw [if_neg (by norm_num : ¬ (-1 : Int) > 0)]
  rw [if_neg (show ¬ (-1 : Int).natAbs > items.length by omega)]
  rw [if_neg (show ¬ ((items.length : Nat) : Int).natAbs > items.length by omega)]
  rw [if_neg (by norm_num : ¬ (-1 : Int) ≥ 0)]
  rw [if_pos (by omega : ((items.length : Int)) ≥ 0)]
  rw [show (items.length : Int) + (-1) = ((items.length - 1 : Nat) : Int) by
    omega]
  rw [sliceWalk_negOne_noStop items _ _ (items.length - 1) (by omega)]
  rw [show items.length - 1 + 1 = items.length by omega]
  rw [List.take_length]

/-- Positions collected by the search loop: each lies between the search
start and the last index at which the delimiter still fits, and the list is
strictly increasing (each search resumes at the previous match plus 1). -/
theorem collectPositions_bounds (items delim : List Char) (start : Nat) :
    (∀ p ∈ collectPositions items delim start,
        start ≤ p ∧ p + delim.length ≤ items.length) ∧
      (collectPositions items delim start).Pairwise (· < ·) := by
  induction start using collectPositions.induct items delim with
  | case1 s hfind =>
      rw [collectPositions_eq, hfind]
      simp
  | case2 s pos hfind ih =>
      rw [collectPositions_eq, hfind]
      obtain ⟨hb1, hb2, hpre⟩ := strFind_bounds hfind
      have hplen : pos + delim.length ≤ items.length := by
        have hle := hpre.length_le
        rw [List.length_drop] at hle
        omega
      constructor
      · intro p hp
        rcases List.mem_cons.mp hp with rfl | hp'
        · exact ⟨hb1, hplen⟩
        · have h2 := ih.1 p hp'
          exact ⟨by omega, h2.2⟩
      · rw [List.pairwise_cons]
        refine ⟨fun q hq => ?_, ih.2⟩
        have h2 := (ih.1 q hq).1
        omega

/-- Every token emitted by the loop is non-empty, given the invariants the
collected positions satisfy. -/
theorem emitTokens_nonempty (items : List Char) (dlen : Nat) (hd : 1 ≤ dlen) :
    ∀ (ps : List Nat) (base : Nat),
      (∀ p ∈ ps, p + dlen ≤ items.length) →
      ps.Pairwise (· < ·) →
      (∀ p ∈ ps, p < base → base < items.length) →
      ∀ seg ∈ emitTokens items dlen base ps, seg ≠ [] := by
  intro ps
  induction ps with
  | nil =>
      intro base _ _ _ seg hseg
      simp [emitTokens] at hseg
  | cons p rest ih =>
      intro base hbound hpair hover seg hseg
      rw [emitTokens] at hseg
      have hp := hbound p (List.mem_cons_self p rest)
      rcases List.mem_append.mp hseg with hseg1 | hseg2
      · by_cases h1 : base = p
        · rw [if_pos h1] at hseg1
          simp at hseg1
        · rw [if_neg h1] at hseg1
          by_cases h2 : base < p
          · rw [if_pos h2] at hseg1
            simp at hseg1
            subst hseg1
            have hlen : 0 < (cppSubstr items base (p - base)).length := by
              simp [cppSubstr]
              omega
            exact (List.length_pos.mp hlen)
          · rw [if_neg h2] at hseg1
            simp at hseg1
            subst hseg1
            have hblen : base < items.length :=
              hover p (List.mem_cons_self p rest) (by omega)
            have hlen : 0 < (items.drop base).length := by
              simp
              omega
            exact (List.length_pos.mp hlen)
      · refine ih (p + dlen) (fun q hq => hbound q (List.mem_cons_of_mem p hq))
          (List.pairwise_cons.mp hpair).2 (fun q hq hlt => ?_) seg hseg2
        have hqp : p < q := (List.pairwise_cons.mp hpair).1 q hq
        have hqb := hbound q (List.mem_cons_of_mem p hq)
        omega

/-- C7: every segment in the collection returned by split is non-empty, for
the generic single-element delimiter form and for the string specialization
with any delimiter form. -/
theorem split_segments_nonempty :
    (∀ (α : Type) (inst : DecidableEq α) (items : List α) (delim : α),
        ∀ seg ∈ split items delim, seg ≠ []) ∧
    (∀ (items delim : List Char) (tokens : List (List Char)),
        splitString items delim = Except.ok tokens →
        ∀ seg ∈ tokens, seg ≠ []) := by
  have hgen : ∀ (α : Type) (inst : DecidableEq α) (items : List α) (delim : α),
      ∀ seg ∈ split items delim, seg ≠ [] := by
    intro α inst items delim
    induction items, delim using split.induct with
    | case1 items delim hrest =>
        intro seg hseg
        rw [split_eq_nil hrest] at hseg
        by_cases ht : items.takeWhile (fun x => x != delim) = []
        · simp only [emitIf, if_pos ht] at hseg
          cases hseg
        · simp only [emitIf, if_neg ht, List.mem_singleton] at hseg
          subst hseg
          exact ht
    | case2 items delim x rest hrest ih =>
        intro seg hseg
        rw [split_eq_cons hrest] at hseg
        rcases List.mem_append.mp hseg with h1 | h2
        · by_cases ht : items.takeWhile (fun x => x != delim) = []
          · simp only [emitIf, if_pos ht] at h1
            cases h1
          · simp only [emitIf, if_neg ht, List.mem_singleton] at h1
            subst h1
            exact ht
        · exact ih seg h2
  refine ⟨hgen, ?_⟩
  intro items delim tokens htok seg hseg
  match delim, htok with
  | [], htok => cases htok
  | [c], htok =>
      have := hgen Char inferInstance items c
      rw [show tokens = split items c by
        injection htok with h
        exact h.symm] at hseg
      exact this seg hseg
  | c1 :: c2 :: ds, htok =>
      have hcol := collectPositions_bounds items (c1 :: c2 :: ds) 0
      have hem := emitTokens_nonempty items (c1 :: c2 :: ds).length
        (by simp) (collectPositions items (c1 :: c2 :: ds) 0) 0
        (fun p hp => (hcol.1 p hp).2) hcol.2 (fun p hp hlt => by omega)
      rw [show tokens = emitTokens items (c1 :: c2 :: ds).length 0
          (collectPositions items (c1 :: c2 :: ds) 0) by
        injection htok with h
        exact h.symm] at hseg
      exact hem seg hseg

/-- Witness for C7: a segment of a concrete multi-character split is
non-empty. -/
theorem split_segments_nonempty_witness : (['a'] : List Char) ≠ [] :=
  split_segments_nonempty.2 ['a', '&', '*', 'b'] ['&', '*'] [['a']]
    (by
      have h0 : strFind ['a', '&', '*', 'b'] ['&', '*'] 0 = some 1 := by decide
      have h1 : strFind ['a', '&', '*', 'b'] ['&', '*'] 2 = none := by decide
      show Except.ok (emitTokens ['a', '&', '*', 'b'] 2 0
          (collectPositions ['a', '&', '*', 'b'] ['&', '*'] 0)) =
        Except.ok [['a']]
      rw [collectPositions_eq, h0]
      norm_num
      rw [collectPositions_eq, h1]
      rfl)
    ['a'] (by simp)

/-- Witness for C4's amended claim on a concrete non-empty list. -/
theorem slice_negOne_reverses_witness :
    slice ([1, 2, 3] : List Nat) (some (-1)) none (some (-1)) =
      SliceResult.ok [3, 2, 1] := by
  have h := slice_negOne_reverses ([1, 2, 3] : List Nat) (by decide)
  simpa using h

/-- Prepending to the accumulator commutes with the join fold. -/
theorem joinCat_append_left {α : Type} (rest : List (List α)) (a b sep : List α) :
    joinCat (a ++ b) rest sep = a ++ joinCat b rest sep := by
  induction rest generalizing b with
  | nil => rfl
  | cons seg rs ih =>
      show joinCat (a ++ b ++ sep ++ seg) rs sep = _
      rw [show a ++ b ++ sep ++ seg = a ++ (b ++ sep ++ seg) by simp]
      rw [ih (b ++ sep ++ seg)]
      rfl

/-- C8 (counterexample): the round-trip fails on the empty sequence, which
satisfies the claim's side conditions vacuously: split returns no segments
and join on zero segments has no defined result, so the round trip does not
return the empty sequence. -/
theorem join_split_roundTrip_fails_on_nil :
    join (split ([] : List Char) ',') [','] ≠ some ([] : List Char) := by
  have hsplit : split ([] : List Char) ',' = [] := by
    rw [split_eq]
    rfl
  rw [hsplit]
  intro h
  cases h

/-- C8 (amended): for every non-empty sequence and single-element delimiter
that occurs neither at the first position, nor at the last position, nor at
two adjacent positions, joining the split segments with the delimiter
reconstructs the input.  The empty sequence must be excluded: split then
returns no segments and join on zero segments has no defined result. -/
theorem join_split_roundTrip {α : Type} [DecidableEq α] (items : List α)
    (delim : α) :
    items ≠ [] → items.head? ≠ some delim → items.getLast? ≠ some delim →
    ¬ [delim, delim] <:+: items →
    join (split items delim) [delim] = some items := by
  induction items, delim using split.induct with
  | case1 items delim hrest =>
      intro hne hhead hlast hadj
      have htake : items.takeWhile (fun x => x != delim) = items := by
        have h := List.takeWhile_append_dropWhile (fun x => x != delim) items
        rw [hrest, List.append_nil] at h
        exact h
      rw [split_eq_nil hrest, htake]
      unfold emitIf
      rw [if_neg hne]
      rfl
  | case2 items delim x rest hrest ih =>
      intro hne hhead hlast hadj
      have hxd : x = delim := by
        have h := List.head_dropWhile_not (fun y => y != delim) items
          (by rw [hrest]; simp)
        have h2 : (items.dropWhile (fun y => y != delim)).head
            (by rw [hrest]; simp) = x := by
          simp [hrest]
        rw [h2] at h
        simpa using h
      rw [hxd] at hrest
      have hitems : items =
          items.takeWhile (fun y => y != delim) ++ delim :: rest := by
        have h := List.takeWhile_append_dropWhile (fun y => y != delim) items
        rw [hrest] at h
        exact h.symm
      have hprene : items.takeWhile (fun y => y != delim) ≠ [] := by
        intro hp
        rw [hitems, hp, List.nil_append] at hhead
        simp at hhead
      have hrestne : rest ≠ [] := by
        intro hr
        rw [hitems, hr] at hlast
        rw [show items.takeWhile (fun y => y != delim) ++ [delim] =
            items.takeWhile (fun y => y != delim) ++ [delim] from rfl,
          List.getLast?_concat] at hlast
        exact hlast rfl
      have hrhead : rest.head? ≠ some delim := by
        intro hrh
        apply hadj
        rcases rest with _ | ⟨r0, rs⟩
        · exact absurd hrh (by simp)
        · simp only [List.head?_cons, Option.some.injEq] at hrh
          rw [hrh] at hitems
          rw [hitems]
          exact ⟨items.takeWhile (fun y => y != delim), rs, by simp⟩
      have hrlast : rest.getLast? ≠ some delim := by
        rw [hitems, show items.takeWhile (fun y => y != delim) ++ delim :: rest =
            (items.takeWhile (fun y => y != delim) ++ [delim]) ++ rest
          by simp] at hlast
        rwa [List.getLast?_append_of_ne_nil _ hrestne] at hlast
      have hradj : ¬ [delim, delim] <:+: rest := by
        intro hinf
        apply hadj
        refine hinf.trans ?_
        rw [hitems]
        exact ⟨items.takeWhile (fun y => y != delim) ++ [delim], [], by simp⟩
      have hihres := ih hrestne hrhead hrlast hradj
      rcases hsr : split rest delim with _ | ⟨r0, rs⟩
      · rw [hsr] at hihres
        cases hihres
      · rw [hsr] at hihres
        have hjc : joinCat r0 rs [delim] = rest := by
          injection hihres
        rw [split_eq_cons hrest, hsr]
        unfold emitIf
        rw [if_neg hprene]
        show some
            (joinCat (items.takeWhile (fun y => y != delim)) (r0 :: rs) [delim]) =
          some items
        rw [show joinCat (items.takeWhile (fun y => y != delim)) (r0 :: rs)
              [delim] =
            joinCat (items.takeWhile (fun y => y != delim) ++ [delim] ++ r0)
              rs [delim]
          from rfl]
        rw [joinCat_append_left rs
          (items.takeWhile (fun y => y != delim) ++ [delim]) r0 [delim]]
        rw [hjc]
        rw [show items.takeWhile (fun y => y != delim) ++ [delim] ++ rest =
            items.takeWhile (fun y => y != delim) ++ delim :: rest by simp]
        rw [← hitems]

/-- Witness for C8's amended claim on a concrete sequence. -/
theorem join_split_roundTrip_witness :
    join (split (['a', ',', 'b'] : List Char) ',') [','] =
      some ['a', ',', 'b'] :=
  join_split_roundTrip ['a', ',', 'b'] ',' (by decide) (by decide) (by decide)
    (by decide)

end Seq
